import Mathlib

/-!
Verification of the yukina content-aggregation layer.

The embedded functions follow `src/unnamed/part_000` (the notes utility module:
`GetSortednotes`, `GetNotes`, `GetTags`, `GetCategories`) and
`src/src/utils/notes.ts` (`getSortedNotes`).

Modelling conventions:
* A JavaScript `Date` built from `data.published` is modelled by the pair of the
  values the code extracts from it: `getFullYear()` (field `year`) and the epoch
  value that `<` / `>` compare (field `time`).
* `getCollection("notes", pred)` is modelled as an input list of entries
  filtered by the predicate, and `import.meta.env.PROD` as a boolean parameter.
* The external slug function `IdToSlug` (imported from `./hash`, an external
  collaborator) is a parameter `idToSlug : String → String` of every function
  that uses it.
* `Array.prototype.sort cmp` (ES2019: a stable sort) is modelled as the stable
  `List.mergeSort` driven by the test `cmp x y < 0` ("x strictly precedes y"):
  an element `x` stays before `y` unless `cmp y x < 0`.
* JavaScript `Map` (iteration order = key insertion order) is modelled as an
  association list; `map.get(k)!.push(v)` appends to the bucket of the unique
  pair with key `k`.
-/

namespace Yukina

/-- The two values the code reads from a `Date` built from `data.published`:
`year` is `getFullYear()` and `time` is the epoch value compared by `<`/`>`. -/
structure PDate where
  year : Int
  time : Int
deriving DecidableEq

/-- A collection entry as used by the module: the entry-level `id` and `slug`,
and the `data` fields `title`, `published`, `draft`, `tags`, `category`. -/
structure Entry where
  id : String
  slug : String
  title : String
  published : PDate
  draft : Option Bool
  tags : Option (List String)
  category : Option String
deriving DecidableEq

/-- The predicate passed to `getCollection` in all four functions:
`import.meta.env.PROD ? data.draft !== true : true`. -/
def filterNotes (isProd : Bool) (coll : List Entry) : List Entry :=
  coll.filter fun e => if isProd then e.draft != some true else true

/-- `Array.prototype.sort cmp`: a stable sort (ES2019) driven by the test
`cmp x y < 0`; `x` stays before `y` unless `cmp y x < 0`. -/
def arraySort (cmp : α → α → Int) (l : List α) : List α :=
  l.mergeSort fun x y => !decide (cmp y x < 0)

/-- The comparator of `GetSortednotes` / `getSortedNotes`:
`(a, b) => (dateA > dateB ? -1 : 1)`. -/
def publishedCompare (a b : Entry) : Int :=
  if a.published.time > b.published.time then -1 else 1

/-- `getSortedNotes` from `src/src/utils/notes.ts`: fetch, filter drafts in
production, sort descending by published date. -/
def getSortedNotes (isProd : Bool) (coll : List Entry) : List Entry :=
  arraySort publishedCompare (filterNotes isProd coll)

/-- A sorted entry together with the navigation fields that the two stitching
loops of `GetSortednotes` add (absent fields are `none`). -/
structure LinkedEntry where
  entry : Entry
  nextSlug : Option String
  nextTitle : Option String
  prevSlug : Option String
  prevTitle : Option String
deriving DecidableEq

/-- The two loops of `GetSortednotes` (lines 51–58): element `i` (for `i ≥ 1`)
gets `nextSlug`/`nextTitle` from element `i-1`, and element `i` (for
`i < length - 1`) gets `prevSlug`/`prevTitle` from element `i+1`. -/
def stitch (sorted : List Entry) : List LinkedEntry :=
  sorted.enum.map fun p =>
    { entry := p.2
      nextSlug := if p.1 = 0 then none else (sorted.get? (p.1 - 1)).map (·.slug)
      nextTitle := if p.1 = 0 then none else (sorted.get? (p.1 - 1)).map (·.title)
      prevSlug := (sorted.get? (p.1 + 1)).map (·.slug)
      prevTitle := (sorted.get? (p.1 + 1)).map (·.title) }

/-- `GetSortednotes`: filter, sort descending by published date, stitch
navigation links. -/
def GetSortednotes (isProd : Bool) (coll : List Entry) : List LinkedEntry :=
  stitch (arraySort publishedCompare (filterNotes isProd coll))

/-- The `Notes` interface: `title`, `id` (a `/notes/…` path), `date`, `tags`. -/
structure Notes where
  title : String
  id : String
  date : PDate
  tags : Option (List String)
deriving DecidableEq

/-- The record pushed into year/tag/category buckets:
`{ title, id: /notes/IdToSlug(note.id), date: new Date(published), tags }`. -/
def mkNote (idToSlug : String → String) (e : Entry) : Notes :=
  { title := e.title
    id := "/notes/" ++ idToSlug e.id
    date := e.published
    tags := e.tags }

/-- One `GetNotes` loop iteration on the year map:
`if (!notes.has(year)) notes.set(year, []); notes.get(year)!.push(n)`. -/
def yearInsert (m : List (Int × List Notes)) (y : Int) (n : Notes) :
    List (Int × List Notes) :=
  let m' := if m.any fun p => p.1 == y then m else m ++ [(y, [])]
  m'.map fun p => if p.1 == y then (p.1, p.2 ++ [n]) else p

/-- The key comparator of `GetNotes`: `(a, b) => b[0] - a[0]`. -/
def yearCompare (a b : Int × List Notes) : Int := b.1 - a.1

/-- The bucket comparator of `GetNotes`: `(a, b) => (a.date > b.date ? -1 : 1)`. -/
def noteDateCompare (a b : Notes) : Int :=
  if a.date.time > b.date.time then -1 else 1

/-- `GetNotes`: group filtered entries by publication year (insertion-ordered
map), sort the keys descending, then sort each bucket descending by date. -/
def GetNotes (idToSlug : String → String) (isProd : Bool) (coll : List Entry) :
    List (Int × List Notes) :=
  let filtered := filterNotes isProd coll
  let notes := filtered.foldl
    (fun m e => yearInsert m e.published.year (mkNote idToSlug e)) []
  let sortedNotes := arraySort yearCompare notes
  sortedNotes.map fun p => (p.1, arraySort noteDateCompare p.2)

/-- The `Tag` interface: first-seen name, `/tags/…` slug, note list. -/
structure Tag where
  name : String
  slug : String
  notes : List Notes
deriving DecidableEq

/-- One tag iteration of `GetTags`: create the record at `IdToSlug tag` if the
slug is unseen, then push the current note onto that record. -/
def tagInsert (idToSlug : String → String) (e : Entry)
    (m : List (String × Tag)) (tag : String) : List (String × Tag) :=
  let tagSlug := idToSlug tag
  let m' := if m.any fun p => p.1 == tagSlug then m
    else m ++ [(tagSlug, { name := tag, slug := "/tags/" ++ tagSlug, notes := [] })]
  m'.map fun p =>
    if p.1 == tagSlug then (p.1, { p.2 with notes := p.2.notes ++ [mkNote idToSlug e] })
    else p

/-- `GetTags`: for each filtered entry, for each of its tags (absent `tags`
iterates nothing), insert into the slug-keyed map. -/
def GetTags (idToSlug : String → String) (isProd : Bool) (coll : List Entry) :
    List (String × Tag) :=
  (filterNotes isProd coll).foldl
    (fun m e => (e.tags.getD []).foldl (tagInsert idToSlug e) m) []

/-- The `Category` interface: first-seen name, `/categories/…` slug, note list. -/
structure Category where
  name : String
  slug : String
  notes : List Notes
deriving DecidableEq

/-- One iteration of `GetCategories` past the guard: create the record at
`IdToSlug category` if the slug is unseen, then push the current note. -/
def catInsert (idToSlug : String → String) (e : Entry)
    (m : List (String × Category)) (cat : String) : List (String × Category) :=
  let categorySlug := idToSlug cat
  let m' := if m.any fun p => p.1 == categorySlug then m
    else m ++ [(categorySlug,
      { name := cat, slug := "/categories/" ++ categorySlug, notes := [] })]
  m'.map fun p =>
    if p.1 == categorySlug then (p.1, { p.2 with notes := p.2.notes ++ [mkNote idToSlug e] })
    else p

/-- `GetCategories`: for each filtered entry, skip it when
`!note.data.category` (absent or empty category), otherwise insert into the
slug-keyed map. -/
def GetCategories (idToSlug : String → String) (isProd : Bool)
    (coll : List Entry) : List (String × Category) :=
  (filterNotes isProd coll).foldl
    (fun m e =>
      match e.category with
      | none => m
      | some c => if c = "" then m else catInsert idToSlug e m c)
    []

/-! ## Generic facts about the sort model

All three comparators in the module have the shape "descending by an integer
key `f`": `cmp x y < 0 ↔ f y < f x`. For such a comparator the driving
relation of `arraySort` is the total, transitive relation `f y ≤ f x`, so the
sort is an order-preserving (stable) descending sort by `f`. -/

/-- The driving relation of `arraySort` for a descending-by-key comparator. -/
lemma arraySort_le_eq {α : Type _} {cmp : α → α → Int} {f : α → Int}
    (hc : ∀ x y, cmp x y < 0 ↔ f y < f x) (x y : α) :
    (!decide (cmp y x < 0)) = decide (f y ≤ f x) := by
  by_cases h : cmp y x < 0
  · have := (hc y x).mp h
    simp [h, Int.not_le.mpr this]
  · have := (hc y x).not.mp h
    simp [h, Int.not_lt.mp this]

lemma arraySort_perm {α : Type _} (cmp : α → α → Int) (l : List α) :
    List.Perm (arraySort cmp l) l :=
  List.mergeSort_perm l _

lemma arraySort_trans {α : Type _} {cmp : α → α → Int} {f : α → Int}
    (hc : ∀ x y, cmp x y < 0 ↔ f y < f x) :
    ∀ (a b c : α), (!decide (cmp b a < 0)) = true → (!decide (cmp c b < 0)) = true →
      (!decide (cmp c a < 0)) = true := by
  intro a b c hab hbc
  rw [arraySort_le_eq hc] at hab hbc ⊢
  exact decide_eq_true (Int.le_trans (of_decide_eq_true hbc) (of_decide_eq_true hab))

lemma arraySort_total {α : Type _} {cmp : α → α → Int} {f : α → Int}
    (hc : ∀ x y, cmp x y < 0 ↔ f y < f x) :
    ∀ (a b : α), ((!decide (cmp b a < 0)) || (!decide (cmp a b < 0))) = true := by
  intro a b
  rw [arraySort_le_eq hc, arraySort_le_eq hc]
  rcases Int.le_total (f a) (f b) with h | h <;> simp [h]

lemma arraySort_pairwise {α : Type _} {cmp : α → α → Int} {f : α → Int}
    (hc : ∀ x y, cmp x y < 0 ↔ f y < f x) (l : List α) :
    (arraySort cmp l).Pairwise fun x y => f y ≤ f x := by
  have h := List.sorted_mergeSort (arraySort_trans hc) (arraySort_total hc) l
  refine h.imp ?_
  intro a b hab
  simp only [arraySort_le_eq hc] at hab
  exact of_decide_eq_true hab

/-- Stability of the sort model: the subsequence of elements sharing one key
value is unchanged by the sort. -/
lemma arraySort_filter_eq {α : Type _} {cmp : α → α → Int} {f : α → Int}
    (hc : ∀ x y, cmp x y < 0 ↔ f y < f x) (l : List α) (p : α → Bool)
    (hp : ∀ x y, p x → p y → f x = f y) :
    (arraySort cmp l).filter p = l.filter p := by
  have hpw : (l.filter p).Pairwise fun x y => (!decide (cmp y x < 0)) = true := by
    refine List.pairwise_of_forall_mem_list fun a ha b hb => ?_
    rw [arraySort_le_eq hc]
    exact decide_eq_true
      (le_of_eq (hp b a (List.of_mem_filter hb) (List.of_mem_filter ha)))
  have hsub : List.Sublist (l.filter p) (arraySort cmp l) :=
    List.sublist_mergeSort (arraySort_trans hc) (arraySort_total hc) hpw
      (List.filter_sublist l)
  have hsub2 : List.Sublist (l.filter p) ((arraySort cmp l).filter p) := by
    have h2 := hsub.filter p
    have h3 : (fun a => p a && p a) = p := by funext a; rw [Bool.and_self]
    rwa [List.filter_filter, h3] at h2
  have hlen : ((arraySort cmp l).filter p).length = (l.filter p).length :=
    ((arraySort_perm cmp l).filter p).length_eq
  exact (hsub2.eq_of_length hlen.symm).symm

/-- The comparator of `GetSortednotes` is "descending by `published.time`". -/
lemma publishedCompare_key (x y : Entry) :
    publishedCompare x y < 0 ↔ y.published.time < x.published.time := by
  unfold publishedCompare
  by_cases h : x.published.time > y.published.time <;> simp [h]

/-- The bucket comparator of `GetNotes` is "descending by `date.time`". -/
lemma noteDateCompare_key (x y : Notes) :
    noteDateCompare x y < 0 ↔ y.date.time < x.date.time := by
  unfold noteDateCompare
  by_cases h : x.date.time > y.date.time <;> simp [h]

/-- The key comparator of `GetNotes` is "descending by the year key". -/
lemma yearCompare_key (x y : Int × List Notes) :
    yearCompare x y < 0 ↔ y.1 < x.1 := by
  unfold yearCompare
  omega

/-- `stitch` only decorates: the underlying entries are unchanged. -/
lemma stitch_map_entry (l : List Entry) :
    (stitch l).map LinkedEntry.entry = l := by
  unfold stitch
  rw [List.map_map]
  have : (LinkedEntry.entry ∘ fun p : Nat × Entry =>
      ({ entry := p.2
         nextSlug := if p.1 = 0 then none else (l.get? (p.1 - 1)).map (·.slug)
         nextTitle := if p.1 = 0 then none else (l.get? (p.1 - 1)).map (·.title)
         prevSlug := (l.get? (p.1 + 1)).map (·.slug)
         prevTitle := (l.get? (p.1 + 1)).map (·.title) } : LinkedEntry)) = Prod.snd := by
    funext p; rfl
  rw [this, List.enum_map_snd]

lemma length_stitch (l : List Entry) : (stitch l).length = l.length := by
  simp [stitch]

lemma length_GetSortednotes (isProd : Bool) (coll : List Entry) :
    (GetSortednotes isProd coll).length = (filterNotes isProd coll).length := by
  unfold GetSortednotes arraySort
  rw [length_stitch, List.length_mergeSort]

/-! ## C1: production/draft filtering -/

/-- C1: with `isProduction = true` the filter keeps exactly the documents whose
`draft` is not `true` (absent or `false` survives); with
`isProduction = false` the filtered set is the whole input. -/
theorem filterNotes_spec (coll : List Entry) :
    (∀ d : Entry, d ∈ filterNotes true coll ↔ d ∈ coll ∧ d.draft ≠ some true) ∧
    filterNotes false coll = coll := by
  constructor
  · intro d
    simp [filterNotes, List.mem_filter]
  · simp [filterNotes]

/-! ## C2: the chronological sequence is sorted non-increasing by date -/

/-- C2: in the outputs of `GetSortednotes` and `getSortedNotes`, every pair of
positions `i < j` (in particular every adjacent pair) has
`published[j] ≤ published[i]`: the sequence is non-increasing by publication
date. -/
theorem getSortedNotes_sorted (isProd : Bool) (coll : List Entry) :
    (getSortedNotes isProd coll).Pairwise
      (fun a b => b.published.time ≤ a.published.time) ∧
    ((GetSortednotes isProd coll).map LinkedEntry.entry).Pairwise
      (fun a b => b.published.time ≤ a.published.time) := by
  constructor
  · exact arraySort_pairwise publishedCompare_key _
  · rw [GetSortednotes, stitch_map_entry]
    exact arraySort_pairwise publishedCompare_key _

lemma length_arraySort {α : Type _} (cmp : α → α → Int) (l : List α) :
    (arraySort cmp l).length = l.length :=
  List.length_mergeSort l

/-- Element `i` of `stitch l`, fully described. -/
lemma stitch_get (l : List Entry) (i : Nat) (h : i < (stitch l).length) :
    (stitch l).get ⟨i, h⟩ =
      { entry := l.get ⟨i, by simpa [length_stitch] using h⟩
        nextSlug := if i = 0 then none else (l.get? (i - 1)).map (·.slug)
        nextTitle := if i = 0 then none else (l.get? (i - 1)).map (·.title)
        prevSlug := (l.get? (i + 1)).map (·.slug)
        prevTitle := (l.get? (i + 1)).map (·.title) } := by
  simp [stitch, List.get_eq_getElem, List.getElem_map, List.getElem_enum]

/-! ## C3: adjacent navigation links -/

/-- C3: in the output of `GetSortednotes`, element `i ≥ 1` points with
`nextSlug`/`nextTitle` at the slug and title of element `i - 1`, element
`i < length - 1` points with `prevSlug`/`prevTitle` at the slug and title of
element `i + 1`, and the link fields are otherwise absent. -/
theorem GetSortednotes_links (isProd : Bool) (coll : List Entry) (i : Nat)
    (h : i < (GetSortednotes isProd coll).length) :
    (1 ≤ i →
      ((GetSortednotes isProd coll).get ⟨i, h⟩).nextSlug =
        some (((GetSortednotes isProd coll).get ⟨i - 1, by omega⟩).entry.slug) ∧
      ((GetSortednotes isProd coll).get ⟨i, h⟩).nextTitle =
        some (((GetSortednotes isProd coll).get ⟨i - 1, by omega⟩).entry.title)) ∧
    (∀ h2 : i + 1 < (GetSortednotes isProd coll).length,
      ((GetSortednotes isProd coll).get ⟨i, h⟩).prevSlug =
        some (((GetSortednotes isProd coll).get ⟨i + 1, h2⟩).entry.slug) ∧
      ((GetSortednotes isProd coll).get ⟨i, h⟩).prevTitle =
        some (((GetSortednotes isProd coll).get ⟨i + 1, h2⟩).entry.title)) ∧
    (i = 0 →
      ((GetSortednotes isProd coll).get ⟨i, h⟩).nextSlug = none ∧
      ((GetSortednotes isProd coll).get ⟨i, h⟩).nextTitle = none) ∧
    (i + 1 = (GetSortednotes isProd coll).length →
      ((GetSortednotes isProd coll).get ⟨i, h⟩).prevSlug = none ∧
      ((GetSortednotes isProd coll).get ⟨i, h⟩).prevTitle = none) := by
  have h0 : i < (stitch (arraySort publishedCompare (filterNotes isProd coll))).length := h
  have hlen : (GetSortednotes isProd coll).length =
      (arraySort publishedCompare (filterNotes isProd coll)).length := by
    rw [length_GetSortednotes, length_arraySort]
  refine ⟨fun hi => ?_, fun hi => ?_, fun hi => ?_, fun hi => ?_⟩
  · have h1 : i - 1 < (stitch (arraySort publishedCompare (filterNotes isProd coll))).length := by
      omega
    show ((stitch _).get ⟨i, h0⟩).nextSlug = some (((stitch _).get ⟨i - 1, h1⟩).entry.slug) ∧
      ((stitch _).get ⟨i, h0⟩).nextTitle = some (((stitch _).get ⟨i - 1, h1⟩).entry.title)
    rw [stitch_get, stitch_get]
    have hne : ¬ i = 0 := by omega
    have hi1 : i - 1 < (arraySort publishedCompare (filterNotes isProd coll)).length := by
      rw [length_stitch] at h0; omega
    simp [hne, List.get?_eq_getElem?, List.getElem?_eq_getElem hi1, List.get_eq_getElem]
  · have h1 : i + 1 < (stitch (arraySort publishedCompare (filterNotes isProd coll))).length := by
      rw [length_stitch]
      rw [hlen] at hi
      exact hi
    show ((stitch _).get ⟨i, h0⟩).prevSlug = some (((stitch _).get ⟨i + 1, h1⟩).entry.slug) ∧
      ((stitch _).get ⟨i, h0⟩).prevTitle = some (((stitch _).get ⟨i + 1, h1⟩).entry.title)
    rw [stitch_get, stitch_get]
    have hi1 : i + 1 < (arraySort publishedCompare (filterNotes isProd coll)).length := by
      rw [length_stitch] at h1; exact h1
    simp [List.get?_eq_getElem?, List.getElem?_eq_getElem hi1, List.get_eq_getElem]
  · show ((stitch _).get ⟨i, h0⟩).nextSlug = none ∧ ((stitch _).get ⟨i, h0⟩).nextTitle = none
    rw [stitch_get]
    simp [hi]
  · show ((stitch _).get ⟨i, h0⟩).prevSlug = none ∧ ((stitch _).get ⟨i, h0⟩).prevTitle = none
    rw [stitch_get]
    have hge : (arraySort publishedCompare (filterNotes isProd coll)).length ≤ i + 1 := by
      rw [← hlen]; omega
    simp [List.get?_eq_getElem?, List.getElem?_eq_none hge]

/-! ## Concrete inputs used by witnesses and counterexamples -/

/-- Demo entry "a": the chronologically older note. -/
def dA : Entry :=
  { id := "a", slug := "a", title := "A", published := ⟨2024, 1⟩, draft := none,
    tags := some ["t1", "t2"], category := some "CatX" }

/-- Demo entry "b": the chronologically newer note. -/
def dB : Entry :=
  { id := "b", slug := "b", title := "B", published := ⟨2024, 2⟩, draft := some false,
    tags := some ["t1"], category := some "catx" }

/-- `GetSortednotes` on the two demo entries, fully evaluated. -/
lemma GetSortednotes_demo :
    GetSortednotes true [dB, dA] =
      [{ entry := dB, nextSlug := none, nextTitle := none,
         prevSlug := some "a", prevTitle := some "A" },
       { entry := dA, nextSlug := some "b", nextTitle := some "B",
         prevSlug := none, prevTitle := none }] := by
  have hf : filterNotes true [dB, dA] = [dB, dA] := by decide
  have hs : arraySort publishedCompare [dB, dA] = [dB, dA] :=
    List.mergeSort_of_sorted (by decide)
  unfold GetSortednotes
  rw [hf, hs]
  decide

/-- Witness for C3 at the demo input: element 1 links back to element 0. -/
theorem GetSortednotes_links_witness :
    ((GetSortednotes true [dB, dA]).get
        ⟨1, by rw [length_GetSortednotes]; decide⟩).nextSlug =
      some (((GetSortednotes true [dB, dA]).get
        ⟨0, by rw [length_GetSortednotes]; decide⟩).entry.slug) :=
  ((GetSortednotes_links true [dB, dA] 1
      (by rw [length_GetSortednotes]; decide)).1 (by omega)).1

/-! ## C4: boundary elements

The claim (following §8 of the spec) says the FIRST element carries no `prev*`
and the LAST no `next*`. The code (and §3 of the spec, and §8's own worked
example) do the opposite: the first element gets `prev*` pointing at the
second, the last gets `next*` pointing at the one before it; it is the first
element's `next*` and the last element's `prev*` that are absent. -/

/-- C4 counterexample: on a two-element collection the first element of the
output DOES carry `prevSlug` (and the last DOES carry `nextSlug`), refuting
"the first element carries no prev* and the last carries no next*". -/
theorem GetSortednotes_boundary_cex :
    ((GetSortednotes true [dB, dA]).head?.map LinkedEntry.prevSlug)
        = some (some "a") ∧
    ((GetSortednotes true [dB, dA]).getLast?.map LinkedEntry.nextSlug)
        = some (some "b") := by
  rw [GetSortednotes_demo]
  decide

/-- C4 (amended): the first element of the chronological sequence carries no
`next*` link fields and the last element carries no `prev*` link fields. -/
theorem GetSortednotes_boundary (isProd : Bool) (coll : List Entry)
    (x y : LinkedEntry)
    (hx : (GetSortednotes isProd coll).head? = some x)
    (hy : (GetSortednotes isProd coll).getLast? = some y) :
    x.nextSlug = none ∧ x.nextTitle = none ∧
    y.prevSlug = none ∧ y.prevTitle = none := by
  have hne : GetSortednotes isProd coll ≠ [] := by
    intro he
    rw [he] at hx
    simp at hx
  have hlen0 : 0 < (GetSortednotes isProd coll).length := List.length_pos.mpr hne
  rw [List.head?_eq_getElem?, List.getElem?_eq_getElem hlen0] at hx
  have hlast : (GetSortednotes isProd coll).length - 1 <
      (GetSortednotes isProd coll).length := by omega
  rw [List.getLast?_eq_getElem?, List.getElem?_eq_getElem hlast] at hy
  have hx2 : x = (stitch (arraySort publishedCompare (filterNotes isProd coll))).get
      ⟨0, hlen0⟩ := by
    have := hx.symm
    rw [Option.some_inj] at this
    exact this.symm ▸ rfl
  have hy2 : y = (stitch (arraySort publishedCompare (filterNotes isProd coll))).get
      ⟨(GetSortednotes isProd coll).length - 1, hlast⟩ := by
    have := hy.symm
    rw [Option.some_inj] at this
    exact this.symm ▸ rfl
  constructor
  · rw [hx2, stitch_get]
    rfl
  constructor
  · rw [hx2, stitch_get]
    rfl
  have hge : (arraySort publishedCompare (filterNotes isProd coll)).length ≤
      (GetSortednotes isProd coll).length - 1 + 1 := by
    rw [length_GetSortednotes] at hlen0 ⊢
    rw [length_arraySort]
    omega
  constructor
  · rw [hy2, stitch_get]
    simp [List.get?_eq_getElem?, List.getElem?_eq_none hge]
  · rw [hy2, stitch_get]
    simp [List.get?_eq_getElem?, List.getElem?_eq_none hge]

/-- Witness for the amended C4 at the demo input. -/
theorem GetSortednotes_boundary_witness :
    ({ entry := dB, nextSlug := none, nextTitle := none,
       prevSlug := some "a", prevTitle := some "A" } : LinkedEntry).nextSlug = none ∧
    ({ entry := dB, nextSlug := none, nextTitle := none,
       prevSlug := some "a", prevTitle := some "A" } : LinkedEntry).nextTitle = none ∧
    ({ entry := dA, nextSlug := some "b", nextTitle := some "B",
       prevSlug := none, prevTitle := none } : LinkedEntry).prevSlug = none ∧
    ({ entry := dA, nextSlug := some "b", nextTitle := some "B",
       prevSlug := none, prevTitle := none } : LinkedEntry).prevTitle = none :=
  GetSortednotes_boundary true [dB, dA] _ _
    (by rw [GetSortednotes_demo]; rfl) (by rw [GetSortednotes_demo]; rfl)

/-! ## The insertion-ordered map pattern

`yearInsert`, `tagInsert` and `catInsert` are the same JavaScript idiom
`if (!m.has(k)) m.set(k, init); m.get(k)!.push(…)` on an insertion-ordered
map. `ensurePush` captures the idiom once so that its properties can be
proved generically and instantiated three times. -/

/-- `if (!m.has(k)) m.set(k, init); ` then update the value at `k`. -/
def ensurePush {κ σ : Type _} [BEq κ] (m : List (κ × σ)) (k : κ) (init : σ)
    (upd : σ → σ) : List (κ × σ) :=
  let m' := if m.any fun p => p.1 == k then m else m ++ [(k, init)]
  m'.map fun p => if p.1 == k then (p.1, upd p.2) else p

lemma yearInsert_eq_ensurePush (m : List (Int × List Notes)) (y : Int) (n : Notes) :
    yearInsert m y n = ensurePush m y [] (· ++ [n]) := rfl

lemma tagInsert_eq_ensurePush (idToSlug : String → String) (e : Entry)
    (m : List (String × Tag)) (tag : String) :
    tagInsert idToSlug e m tag =
      ensurePush m (idToSlug tag)
        { name := tag, slug := "/tags/" ++ idToSlug tag, notes := [] }
        (fun t => { t with notes := t.notes ++ [mkNote idToSlug e] }) := rfl

lemma catInsert_eq_ensurePush (idToSlug : String → String) (e : Entry)
    (m : List (String × Category)) (cat : String) :
    catInsert idToSlug e m cat =
      ensurePush m (idToSlug cat)
        { name := cat, slug := "/categories/" ++ idToSlug cat, notes := [] }
        (fun t => { t with notes := t.notes ++ [mkNote idToSlug e] }) := rfl

/-- Association list lookup (the value of `m.get(k)`). -/
def aget {κ σ : Type _} [BEq κ] (m : List (κ × σ)) (k : κ) : Option σ :=
  match m with
  | [] => none
  | p :: m => if p.1 == k then some p.2 else aget m k

section AssocLemmas

variable {κ σ : Type _} [BEq κ] [LawfulBEq κ] [DecidableEq κ]

lemma aget_map_upd (k k2 : κ) (upd : σ → σ) :
    ∀ m : List (κ × σ),
      aget (m.map fun p => if p.1 == k then (p.1, upd p.2) else p) k2 =
        if k2 = k then (aget m k).map upd else aget m k2 := by
  intro m
  induction m with
  | nil => by_cases h2 : k2 = k <;> simp [aget, h2]
  | cons p m ih =>
    simp only [beq_iff_eq] at ih
    by_cases hp : p.1 = k
    · by_cases h2 : k2 = k
      · have h2' : p.1 = k2 := hp.trans h2.symm
        simp [aget, hp, h2, h2']
      · have h2' : ¬ k = k2 := fun he => h2 he.symm
        have h3 : ¬ p.1 = k2 := fun he => h2 (he.symm.trans hp)
        simp [aget, hp, h2, h2', h3, ih]
    · by_cases h2 : p.1 = k2
      · have h2k : ¬ k2 = k := fun he => hp (h2.trans he)
        simp [aget, hp, h2, h2k]
      · simp [aget, hp, h2, ih]

lemma aget_append_single (m : List (κ × σ)) (k k2 : κ) (v : σ) :
    aget (m ++ [(k, v)]) k2 =
      match aget m k2 with
      | some w => some w
      | none => if k2 = k then some v else none := by
  induction m with
  | nil =>
    by_cases h : k2 = k
    · simp [aget, h]
    · have h' : ¬ k = k2 := fun he => h he.symm
      simp [aget, h, h']
  | cons p m ih =>
    by_cases hp : p.1 = k2
    · simp [aget, hp]
    · simp [aget, hp, ih]

lemma aget_eq_none_of_not_any (m : List (κ × σ)) (k : κ)
    (h : m.any (fun p => p.1 == k) = false) : aget m k = none := by
  induction m with
  | nil => rfl
  | cons p m ih =>
    simp only [List.any_cons, Bool.or_eq_false_iff] at h
    simp [aget, h.1, ih h.2]

lemma aget_isSome_of_any (m : List (κ × σ)) (k : κ)
    (h : m.any (fun p => p.1 == k) = true) : ∃ v, aget m k = some v := by
  induction m with
  | nil => simp at h
  | cons p m ih =>
    by_cases hp : p.1 = k
    · exact ⟨p.2, by simp [aget, hp]⟩
    · have hpk : (p.1 == k) = false := by simp [hp]
      simp only [List.any_cons, hpk, Bool.false_or] at h
      obtain ⟨v, hv⟩ := ih h
      exact ⟨v, by simp [aget, hpk, hv]⟩

/-- The single defining equation of `ensurePush` at the lookup level. -/
lemma aget_ensurePush (m : List (κ × σ)) (k k2 : κ) (init : σ) (upd : σ → σ) :
    aget (ensurePush m k init upd) k2 =
      if k2 = k then some (upd ((aget m k).getD init)) else aget m k2 := by
  unfold ensurePush
  by_cases hany : m.any (fun p => p.1 == k) = true
  · obtain ⟨v, hv⟩ := aget_isSome_of_any m k hany
    simp only [hany, if_true]
    rw [aget_map_upd]
    by_cases h2 : k2 = k <;> simp [h2, hv]
  · have hf : m.any (fun p => p.1 == k) = false := by
      revert hany; cases m.any (fun p => p.1 == k) <;> simp
    have hnone := aget_eq_none_of_not_any m k hf
    simp only [hf, Bool.false_eq_true, if_false]
    rw [aget_map_upd]
    by_cases h2 : k2 = k
    · simp [h2, aget_append_single, hnone]
    · simp only [h2, if_false]
      rw [aget_append_single]
      cases hg : aget m k2 with
      | some w => rfl
      | none => simp [h2]

/-- Keys of `ensurePush`: unchanged when `k` is present, else `k` appended. -/
lemma ensurePush_keys (m : List (κ × σ)) (k : κ) (init : σ) (upd : σ → σ) :
    (ensurePush m k init upd).map Prod.fst =
      if m.any (fun p => p.1 == k) then m.map Prod.fst
      else m.map Prod.fst ++ [k] := by
  unfold ensurePush
  have hfst : ∀ l : List (κ × σ),
      (l.map fun p => if p.1 == k then (p.1, upd p.2) else p).map Prod.fst =
        l.map Prod.fst := by
    intro l
    rw [List.map_map]
    refine List.map_congr_left fun p _ => ?_
    by_cases hp : p.1 = k <;> simp [hp]
  by_cases hany : m.any (fun p => p.1 == k) = true
  · simp only [hany, if_true]
    exact hfst m
  · have hf : m.any (fun p => p.1 == k) = false := by
      revert hany; cases m.any (fun p => p.1 == k) <;> simp
    simp only [hf, Bool.false_eq_true, if_false]
    rw [hfst]
    simp

lemma any_key_iff_mem (m : List (κ × σ)) (k : κ) :
    m.any (fun p => p.1 == k) = true ↔ k ∈ m.map Prod.fst := by
  simp [List.any_eq_true, List.mem_map]

lemma ensurePush_keys_nodup (m : List (κ × σ)) (k : κ) (init : σ) (upd : σ → σ)
    (h : (m.map Prod.fst).Nodup) :
    ((ensurePush m k init upd).map Prod.fst).Nodup := by
  rw [ensurePush_keys]
  by_cases hany : m.any (fun p => p.1 == k) = true
  · simpa [hany]
  · have hf : m.any (fun p => p.1 == k) = false := by
      revert hany; cases m.any (fun p => p.1 == k) <;> simp
    have hnm : k ∉ m.map Prod.fst := fun hk => by
      rw [← any_key_iff_mem m k] at hk
      rw [hk] at hf
      cases hf
    simp [hf, List.nodup_append, h, hnm]

/-- With no-duplicate keys, membership is exactly lookup. -/
lemma mem_iff_aget (m : List (κ × σ)) (h : (m.map Prod.fst).Nodup) (k : κ) (v : σ) :
    (k, v) ∈ m ↔ aget m k = some v := by
  induction m with
  | nil => simp [aget]
  | cons p m ih =>
    simp only [List.map_cons, List.nodup_cons] at h
    by_cases hp : p.1 = k
    · have hnm : (k, v) ∉ m := by
        intro hm
        exact h.1 (hp ▸ (List.mem_map.mpr ⟨(k, v), hm, rfl⟩))
      constructor
      · intro hmem
        rcases List.mem_cons.mp hmem with he | hm
        · rw [← he]
          simp [aget]
        · exact absurd hm hnm
      · intro ha
        have hbeq : (p.1 == k) = true := by simp [hp]
        simp only [aget, hbeq, if_true, Option.some_inj] at ha
        refine List.mem_cons.mpr (Or.inl ?_)
        rw [← hp, ← ha]
    · have hpk : (p.1 == k) = false := by simp [hp]
      constructor
      · intro hmem
        rcases List.mem_cons.mp hmem with he | hm
        · exact absurd (congrArg Prod.fst he).symm hp
        · simp [aget, hpk, (ih h.2).mp hm]
      · intro ha
        simp only [aget, hpk, Bool.false_eq_true, if_false] at ha
        exact List.mem_cons_of_mem p ((ih h.2).mpr ha)

end AssocLemmas

/-- Folding the `ensurePush` idiom over a list of items. -/
def foldInsert {ι κ σ : Type _} [BEq κ] (key : ι → κ) (init : ι → σ)
    (upd : ι → σ → σ) (m : List (κ × σ)) (its : List ι) : List (κ × σ) :=
  its.foldl (fun m i => ensurePush m (key i) (init i) (upd i)) m

/-- The value accumulated at key `k` after processing `its`: fold the update
over all items with key `k`, starting from the initial record of the first
such item (the update is applied to the first item too, since the code
creates an empty record and then pushes). -/
def keyVal {ι κ σ : Type _} [BEq κ] (key : ι → κ) (init : ι → σ)
    (upd : ι → σ → σ) (its : List ι) (k : κ) : Option σ :=
  match its.filter (fun i => key i == k) with
  | [] => none
  | b :: bs => some ((b :: bs).foldl (fun s i => upd i s) (init b))

section FoldInsertLemmas

variable {ι κ σ : Type _} [BEq κ] [LawfulBEq κ] [DecidableEq κ]
variable {key : ι → κ} {init : ι → σ} {upd : ι → σ → σ}

lemma foldInsert_snoc (m : List (κ × σ)) (its : List ι) (i : ι) :
    foldInsert key init upd m (its ++ [i]) =
      ensurePush (foldInsert key init upd m its) (key i) (init i) (upd i) := by
  simp [foldInsert, List.foldl_append]

lemma keyVal_snoc (its : List ι) (i : ι) (k : κ) :
    keyVal key init upd (its ++ [i]) k =
      if key i = k then some (upd i ((keyVal key init upd its k).getD (init i)))
      else keyVal key init upd its k := by
  unfold keyVal
  rw [List.filter_append]
  by_cases hk : key i = k
  · have hb : (key i == k) = true := by simp [hk]
    cases hfil : its.filter (fun j => key j == k) with
    | nil => simp [hfil, hb, hk, List.filter]
    | cons b bs =>
      simp only [hfil, List.filter, hb, hk, if_true]
      simp [List.foldl_append]
  · have hb : (key i == k) = false := by simp [hk]
    cases hfil : its.filter (fun j => key j == k) with
    | nil => simp [hfil, hb, hk, List.filter]
    | cons b bs => simp [hfil, hb, hk, List.filter]

/-- The content of the constructed map, key by key. -/
lemma foldInsert_aget (its : List ι) (k : κ) :
    aget (foldInsert key init upd [] its) k = keyVal key init upd its k := by
  induction its using List.reverseRecOn with
  | nil => rfl
  | append_singleton its i ih =>
    rw [foldInsert_snoc, aget_ensurePush, keyVal_snoc]
    by_cases hk : key i = k
    · simp [hk, ih]
    · have hk2 : ¬ k = key i := fun he => hk he.symm
      simp [hk, hk2, ih]

lemma foldInsert_keys_nodup (its : List ι) :
    ∀ m : List (κ × σ), (m.map Prod.fst).Nodup →
      ((foldInsert key init upd m its).map Prod.fst).Nodup := by
  induction its with
  | nil => intro m hm; exact hm
  | cons i its ih =>
    intro m hm
    exact ih _ (ensurePush_keys_nodup _ _ _ _ hm)

lemma aget_isSome_iff (m : List (κ × σ)) (k : κ) :
    (∃ v, aget m k = some v) ↔ k ∈ m.map Prod.fst := by
  induction m with
  | nil => simp [aget]
  | cons p m ih =>
    by_cases hp : p.1 = k
    · simp [aget, hp]
    · simp [aget, hp, ih]
      intro he
      exact absurd he.symm hp

lemma keyVal_isSome_iff (its : List ι) (k : κ) :
    (∃ v, keyVal key init upd its k = some v) ↔ ∃ i ∈ its, key i = k := by
  unfold keyVal
  cases hfil : its.filter (fun j => key j == k) with
  | nil =>
    simp only [List.filter_eq_nil_iff] at hfil
    simp only [beq_iff_eq] at hfil
    constructor
    · rintro ⟨v, hv⟩; cases hv
    · rintro ⟨i, hi, hk⟩; exact absurd hk (hfil i hi)
  | cons b bs =>
    have hb : b ∈ its.filter (fun j => key j == k) := by rw [hfil]; exact List.mem_cons_self b bs
    have := List.mem_filter.mp hb
    constructor
    · intro _
      exact ⟨b, this.1, by simpa using this.2⟩
    · intro _
      exact ⟨_, rfl⟩

/-- The key set of the constructed map is the key image of the items. -/
lemma foldInsert_keys_mem (its : List ι) (k : κ) :
    k ∈ (foldInsert key init upd [] its).map Prod.fst ↔ ∃ i ∈ its, key i = k := by
  rw [← aget_isSome_iff]
  simp only [foldInsert_aget]
  exact keyVal_isSome_iff its k

/-- Membership in the constructed map, via the lookup characterization. -/
lemma foldInsert_mem (its : List ι) (p : κ × σ)
    (hp : p ∈ foldInsert key init upd [] its) :
    keyVal key init upd its p.1 = some p.2 := by
  have hnd : ((foldInsert key init upd [] its).map Prod.fst).Nodup :=
    foldInsert_keys_nodup its [] (by simp)
  rw [← foldInsert_aget]
  exact (mem_iff_aget _ hnd p.1 p.2).mp hp

end FoldInsertLemmas

section SumLemmas

variable {κ σ : Type _} [BEq κ] [LawfulBEq κ] [DecidableEq κ]

lemma map_upd_id (m : List (κ × σ)) (k : κ) (upd : σ → σ)
    (h : ∀ q ∈ m, q.1 ≠ k) :
    (m.map fun p => if p.1 == k then (p.1, upd p.2) else p) = m := by
  have := List.map_congr_left (l := m)
    (f := fun p => if p.1 == k then (p.1, upd p.2) else p) (g := id)
    (fun q hq => by simp [h q hq])
  simpa using this

lemma sum_map_upd (m : List (κ × σ)) (k : κ) (upd : σ → σ) (μ : σ → Nat)
    (hupd : ∀ s, μ (upd s) = μ s + 1)
    (hnd : (m.map Prod.fst).Nodup) (hk : k ∈ m.map Prod.fst) :
    ((m.map fun p => if p.1 == k then (p.1, upd p.2) else p).map
        fun p => μ p.2).sum =
      ((m.map fun p => μ p.2).sum) + 1 := by
  induction m with
  | nil => simp at hk
  | cons p m ih =>
    simp only [List.map_cons, List.nodup_cons] at hnd
    by_cases hp : p.1 = k
    · have hrest : ∀ q ∈ m, q.1 ≠ k := by
        intro q hq he
        exact hnd.1 (hp ▸ he ▸ List.mem_map.mpr ⟨q, hq, rfl⟩)
      rw [List.map_cons, map_upd_id m k upd hrest]
      simp [hp, hupd]
      omega
    · have hk2 : k ∈ m.map Prod.fst := by
        rcases List.mem_map.mp hk with ⟨q, hq, he⟩
        rcases List.mem_cons.mp hq with rfl | hq2
        · exact absurd he hp
        · exact List.mem_map.mpr ⟨q, hq2, he⟩
      have hbeq : (p.1 == k) = false := by simp [hp]
      simp only [List.map_cons, hbeq, Bool.false_eq_true, if_false, List.sum_cons]
      rw [ih hnd.2 hk2]
      omega

/-- One `ensurePush` adds exactly one to the total measure, when the update
adds one and the initial record measures zero. -/
lemma sum_ensurePush (m : List (κ × σ)) (k : κ) (init : σ) (upd : σ → σ)
    (μ : σ → Nat) (hupd : ∀ s, μ (upd s) = μ s + 1) (hinit : μ init = 0)
    (hnd : (m.map Prod.fst).Nodup) :
    ((ensurePush m k init upd).map fun p => μ p.2).sum =
      ((m.map fun p => μ p.2).sum) + 1 := by
  unfold ensurePush
  by_cases hany : m.any (fun p => p.1 == k) = true
  · simp only [hany, if_true]
    exact sum_map_upd m k upd μ hupd hnd ((any_key_iff_mem m k).mp hany)
  · have hf : m.any (fun p => p.1 == k) = false := by
      revert hany; cases m.any (fun p => p.1 == k) <;> simp
    have hno : ∀ q ∈ m, q.1 ≠ k := by
      intro q hq he
      have : m.any (fun p => p.1 == k) = true :=
        List.any_eq_true.mpr ⟨q, hq, by simp [he]⟩
      rw [this] at hf; cases hf
    simp only [hf, Bool.false_eq_true, if_false]
    rw [List.map_append, map_upd_id m k upd hno]
    simp [hupd, hinit]

lemma foldInsert_sum {ι : Type _} (key : ι → κ) (init : ι → σ) (upd : ι → σ → σ)
    (μ : σ → Nat) (hupd : ∀ i s, μ (upd i s) = μ s + 1)
    (hinit : ∀ i, μ (init i) = 0) :
    ∀ (its : List ι) (m : List (κ × σ)), (m.map Prod.fst).Nodup →
      ((foldInsert key init upd m its).map fun p => μ p.2).sum =
        ((m.map fun p => μ p.2).sum) + its.length := by
  intro its
  induction its with
  | nil => intro m _; simp [foldInsert]
  | cons i its ih =>
    intro m hm
    have hstep : foldInsert key init upd m (i :: its) =
        foldInsert key init upd (ensurePush m (key i) (init i) (upd i)) its := rfl
    rw [hstep, ih _ (ensurePush_keys_nodup _ _ _ _ hm),
      sum_ensurePush m (key i) (init i) (upd i) μ (hupd i) (hinit i) hm]
    simp
    omega

end SumLemmas

/-! ## Shape of the accumulated bucket values -/

lemma foldl_push_list {ι : Type _} (g : ι → Notes) :
    ∀ (l : List ι) (s : List Notes),
      l.foldl (fun s i => s ++ [g i]) s = s ++ l.map g := by
  intro l
  induction l with
  | nil => simp
  | cons i l ih => intro s; simp [ih]

lemma foldl_push_tag {ι : Type _} (g : ι → Notes) :
    ∀ (l : List ι) (t : Tag),
      l.foldl (fun t i => { t with notes := t.notes ++ [g i] }) t =
        { t with notes := t.notes ++ l.map g } := by
  intro l
  induction l with
  | nil => simp
  | cons i l ih => intro t; simp [ih]

lemma foldl_push_cat {ι : Type _} (g : ι → Notes) :
    ∀ (l : List ι) (t : Category),
      l.foldl (fun t i => { t with notes := t.notes ++ [g i] }) t =
        { t with notes := t.notes ++ l.map g } := by
  intro l
  induction l with
  | nil => simp
  | cons i l ih => intro t; simp [ih]

/-! ## The three functions as `foldInsert` instances -/

/-- The traversal sequence of `(document, tag)` pairs that `GetTags` walks. -/
def tagItems (isProd : Bool) (coll : List Entry) : List (Entry × String) :=
  (filterNotes isProd coll).flatMap fun e => (e.tags.getD []).map fun t => (e, t)

/-- The traversal sequence of `(document, category)` pairs that
`GetCategories` walks: one per document that passes the
`!note.data.category` guard. -/
def catItems (isProd : Bool) (coll : List Entry) : List (Entry × String) :=
  (filterNotes isProd coll).flatMap fun e =>
    match e.category with
    | none => []
    | some c => if c = "" then [] else [(e, c)]

lemma GetNotes_group_eq (idToSlug : String → String) (isProd : Bool)
    (coll : List Entry) :
    (filterNotes isProd coll).foldl
        (fun m e => yearInsert m e.published.year (mkNote idToSlug e)) [] =
      foldInsert (fun e : Entry => e.published.year) (fun _ => ([] : List Notes))
        (fun e s => s ++ [mkNote idToSlug e]) [] (filterNotes isProd coll) := rfl

lemma GetTags_eq_foldInsert (idToSlug : String → String) (isProd : Bool)
    (coll : List Entry) :
    GetTags idToSlug isProd coll =
      foldInsert (fun q : Entry × String => idToSlug q.2)
        (fun q => { name := q.2, slug := "/tags/" ++ idToSlug q.2, notes := [] })
        (fun q t => { t with notes := t.notes ++ [mkNote idToSlug q.1] })
        [] (tagItems isProd coll) := by
  unfold GetTags tagItems
  generalize filterNotes isProd coll = l
  have inner : ∀ (e : Entry) (ts : List String) (m : List (String × Tag)),
      ts.foldl (tagInsert idToSlug e) m =
        foldInsert (fun q : Entry × String => idToSlug q.2)
          (fun q => { name := q.2, slug := "/tags/" ++ idToSlug q.2, notes := [] })
          (fun q t => { t with notes := t.notes ++ [mkNote idToSlug q.1] })
          m (ts.map fun t => (e, t)) := by
    intro e ts
    induction ts with
    | nil => intro m; rfl
    | cons t ts ih =>
      intro m
      simp only [List.foldl_cons, List.map_cons]
      rw [ih]
      rfl
  have outer : ∀ (l : List Entry) (m : List (String × Tag)),
      l.foldl (fun m e => (e.tags.getD []).foldl (tagInsert idToSlug e) m) m =
        foldInsert (fun q : Entry × String => idToSlug q.2)
          (fun q => { name := q.2, slug := "/tags/" ++ idToSlug q.2, notes := [] })
          (fun q t => { t with notes := t.notes ++ [mkNote idToSlug q.1] })
          m (l.flatMap fun e => (e.tags.getD []).map fun t => (e, t)) := by
    intro l2
    induction l2 with
    | nil => intro m; rfl
    | cons e2 l3 ih2 =>
      intro m
      simp only [List.foldl_cons, List.flatMap_cons]
      rw [inner e2, ih2]
      simp [foldInsert, List.foldl_append]
  exact outer l []

lemma GetCategories_eq_foldInsert (idToSlug : String → String) (isProd : Bool)
    (coll : List Entry) :
    GetCategories idToSlug isProd coll =
      foldInsert (fun q : Entry × String => idToSlug q.2)
        (fun q => { name := q.2, slug := "/categories/" ++ idToSlug q.2, notes := [] })
        (fun q t => { t with notes := t.notes ++ [mkNote idToSlug q.1] })
        [] (catItems isProd coll) := by
  unfold GetCategories catItems
  generalize filterNotes isProd coll = l
  have outer : ∀ (l : List Entry) (m : List (String × Category)),
      l.foldl (fun m e =>
          match e.category with
          | none => m
          | some c => if c = "" then m else catInsert idToSlug e m c) m =
        foldInsert (fun q : Entry × String => idToSlug q.2)
          (fun q => { name := q.2, slug := "/categories/" ++ idToSlug q.2, notes := [] })
          (fun q t => { t with notes := t.notes ++ [mkNote idToSlug q.1] })
          m (l.flatMap fun e =>
              match e.category with
              | none => []
              | some c => if c = "" then [] else [(e, c)]) := by
    intro l
    induction l with
    | nil => intro m; rfl
    | cons e l ih =>
      intro m
      simp only [List.foldl_cons, List.flatMap_cons]
      cases hc : e.category with
      | none => simpa using ih m
      | some c =>
        by_cases hce : c = ""
        · simpa [hce] using ih m
        · simp only [hce, if_false, List.singleton_append]
          rw [catInsert_eq_ensurePush]
          exact ih _
  exact outer l []

lemma GetNotes_eq (idToSlug : String → String) (isProd : Bool) (coll : List Entry) :
    GetNotes idToSlug isProd coll =
      (arraySort yearCompare
        (foldInsert (fun e : Entry => e.published.year) (fun _ => ([] : List Notes))
          (fun e s => s ++ [mkNote idToSlug e]) [] (filterNotes isProd coll))).map
        fun p => (p.1, arraySort noteDateCompare p.2) := rfl

/-- The value stored in the year map at a key that is hit: the notes of the
entries of that year, in traversal order. -/
lemma GetNotes_bucket_shape (idToSlug : String → String) (isProd : Bool)
    (coll : List Entry) (y : Int) (v : List Notes)
    (hv : keyVal (fun e : Entry => e.published.year) (fun _ => ([] : List Notes))
        (fun e s => s ++ [mkNote idToSlug e]) (filterNotes isProd coll) y = some v) :
    v = ((filterNotes isProd coll).filter fun e => e.published.year == y).map
      (mkNote idToSlug) := by
  unfold keyVal at hv
  cases hfil : (filterNotes isProd coll).filter (fun e => e.published.year == y) with
  | nil => rw [hfil] at hv; cases hv
  | cons b bs =>
    rw [hfil] at hv
    simp only [Option.some_inj] at hv
    rw [← hv, foldl_push_list]
    simp

/-! ## C6: the year index -/

/-- C6: the key set of `GetNotes` is exactly the set of publication years of
the filtered documents, the keys are strictly descending, and every year
bucket is non-increasing by date. -/
theorem GetNotes_spec (idToSlug : String → String) (isProd : Bool)
    (coll : List Entry) :
    (∀ y : Int, y ∈ (GetNotes idToSlug isProd coll).map Prod.fst ↔
        y ∈ (filterNotes isProd coll).map fun e => e.published.year) ∧
    ((GetNotes idToSlug isProd coll).map Prod.fst).Pairwise (fun a b => b < a) ∧
    (∀ (y : Int) (bucket : List Notes), (y, bucket) ∈ GetNotes idToSlug isProd coll →
      bucket.Pairwise fun a b => b.date.time ≤ a.date.time) := by
  have hkeys : (GetNotes idToSlug isProd coll).map Prod.fst =
      (arraySort yearCompare
        (foldInsert (fun e : Entry => e.published.year) (fun _ => ([] : List Notes))
          (fun e s => s ++ [mkNote idToSlug e]) [] (filterNotes isProd coll))).map
        Prod.fst := by
    rw [GetNotes_eq, List.map_map]
    rfl
  have hperm := arraySort_perm yearCompare
    (foldInsert (fun e : Entry => e.published.year) (fun _ => ([] : List Notes))
      (fun e s => s ++ [mkNote idToSlug e]) [] (filterNotes isProd coll))
  refine ⟨?_, ?_, ?_⟩
  · intro y
    rw [hkeys, (hperm.map Prod.fst).mem_iff, foldInsert_keys_mem]
    simp [List.mem_map]
  · have hsorted := arraySort_pairwise yearCompare_key
      (foldInsert (fun e : Entry => e.published.year) (fun _ => ([] : List Notes))
        (fun e s => s ++ [mkNote idToSlug e]) [] (filterNotes isProd coll))
    have hnd : ((arraySort yearCompare
        (foldInsert (fun e : Entry => e.published.year) (fun _ => ([] : List Notes))
          (fun e s => s ++ [mkNote idToSlug e]) [] (filterNotes isProd coll))).map
        Prod.fst).Nodup :=
      ((hperm.map Prod.fst).nodup_iff).mpr (foldInsert_keys_nodup _ [] (by simp))
    rw [hkeys]
    have h1 : ((arraySort yearCompare
        (foldInsert (fun e : Entry => e.published.year) (fun _ => ([] : List Notes))
          (fun e s => s ++ [mkNote idToSlug e]) [] (filterNotes isProd coll))).map
        Prod.fst).Pairwise fun a b => b ≤ a :=
      List.pairwise_map.mpr hsorted
    have h2 := h1.and hnd
    exact h2.imp fun hab => lt_of_le_of_ne hab.1 (Ne.symm hab.2)
  · intro y bucket hmem
    rw [GetNotes_eq] at hmem
    rcases List.mem_map.mp hmem with ⟨p, _, he⟩
    have hb : bucket = arraySort noteDateCompare p.2 := (Prod.mk.injEq _ _ _ _).mp he |>.2.symm
    rw [hb]
    exact arraySort_pairwise noteDateCompare_key p.2

/-! ## C7: tag entry counts -/

/-- C7: the total number of note entries across all `GetTags` records equals
the total number of `(document, tag)` pairs of the filtered set (0 for a
document without `tags`). -/
theorem GetTags_total_count (idToSlug : String → String) (isProd : Bool)
    (coll : List Entry) :
    ((GetTags idToSlug isProd coll).map fun p => p.2.notes.length).sum =
      ((filterNotes isProd coll).map fun e => (e.tags.getD []).length).sum := by
  rw [GetTags_eq_foldInsert]
  have hsum := foldInsert_sum (fun q : Entry × String => idToSlug q.2)
    (fun q => ({ name := q.2, slug := "/tags/" ++ idToSlug q.2, notes := [] } : Tag))
    (fun q t => { t with notes := t.notes ++ [mkNote idToSlug q.1] })
    (fun t : Tag => t.notes.length)
    (fun i s => by simp) (fun i => rfl) (tagItems isProd coll) [] (by simp)
  rw [hsum]
  simp only [List.map_nil, List.sum_nil, Nat.zero_add]
  unfold tagItems
  rw [List.flatMap]
  rw [List.length_flatten, List.map_map]
  congr 1
  refine List.map_congr_left fun e _ => ?_
  simp

/-! ## C5: stability of all produced orders -/

/-- C5: in every sorted sequence the program produces — the chronological
sequences of `GetSortednotes` and `getSortedNotes` and each per-year bucket
of `GetNotes` — the subsequence of elements having any fixed publication date
is exactly the subsequence of the source (filtered) set with that date: ties
in publication date keep their original source order. -/
theorem sort_stable_ties (idToSlug : String → String) (isProd : Bool)
    (coll : List Entry) :
    (∀ d : Int, ((GetSortednotes isProd coll).map LinkedEntry.entry).filter
        (fun e => e.published.time == d) =
      (filterNotes isProd coll).filter (fun e => e.published.time == d)) ∧
    (∀ d : Int, (getSortedNotes isProd coll).filter (fun e => e.published.time == d) =
      (filterNotes isProd coll).filter (fun e => e.published.time == d)) ∧
    (∀ (y : Int) (bucket : List Notes), (y, bucket) ∈ GetNotes idToSlug isProd coll →
      ∀ d : Int, bucket.filter (fun n => n.date.time == d) =
        (((filterNotes isProd coll).filter fun e => e.published.year == y).map
          (mkNote idToSlug)).filter (fun n => n.date.time == d)) := by
  refine ⟨?_, ?_, ?_⟩
  · intro d
    rw [GetSortednotes, stitch_map_entry]
    exact arraySort_filter_eq publishedCompare_key _ _
      (fun x y hx hy => by
        have hx2 : x.published.time = d := by simpa using hx
        have hy2 : y.published.time = d := by simpa using hy
        rw [hx2, hy2])
  · intro d
    rw [getSortedNotes]
    exact arraySort_filter_eq publishedCompare_key _ _
      (fun x y hx hy => by
        have hx2 : x.published.time = d := by simpa using hx
        have hy2 : y.published.time = d := by simpa using hy
        rw [hx2, hy2])
  · intro y bucket hmem d
    rw [GetNotes_eq] at hmem
    rcases List.mem_map.mp hmem with ⟨p, hp, he⟩
    have hy : p.1 = y := (Prod.mk.injEq _ _ _ _).mp he |>.1
    have hb : bucket = arraySort noteDateCompare p.2 := (Prod.mk.injEq _ _ _ _).mp he |>.2.symm
    have hpg : p ∈ foldInsert (fun e : Entry => e.published.year)
        (fun _ => ([] : List Notes)) (fun e s => s ++ [mkNote idToSlug e]) []
        (filterNotes isProd coll) :=
      (arraySort_perm yearCompare _).mem_iff.mp hp
    have hval := foldInsert_mem _ p hpg
    rw [hy] at hval
    have hshape := GetNotes_bucket_shape idToSlug isProd coll y p.2 hval
    rw [hb, arraySort_filter_eq noteDateCompare_key _ _
      (fun x y2 hx hy2 => by
        have hx2 : x.date.time = d := by simpa using hx
        have hy3 : y2.date.time = d := by simpa using hy2
        rw [hx2, hy3]), hshape]

/-- The record stored by `GetTags` at a key that is hit: first-seen name,
`/tags/` path, and one note per `(document, tag)` pair whose tag slugs to the
key, in traversal order. -/
lemma tag_record_shape (idToSlug : String → String)
    (items : List (Entry × String)) (k : String) (t : Tag)
    (hv : keyVal (fun q : Entry × String => idToSlug q.2)
        (fun q => ({ name := q.2, slug := "/tags/" ++ idToSlug q.2, notes := [] } : Tag))
        (fun q t => { t with notes := t.notes ++ [mkNote idToSlug q.1] }) items k
      = some t) :
    k = idToSlug t.name ∧
    t.slug = "/tags/" ++ k ∧
    (items.filter fun q => idToSlug q.2 == k).head?.map (fun q => q.2) = some t.name ∧
    t.notes = (items.filter fun q => idToSlug q.2 == k).map fun q => mkNote idToSlug q.1 := by
  unfold keyVal at hv
  cases hfil : items.filter (fun q => idToSlug q.2 == k) with
  | nil => rw [hfil] at hv; cases hv
  | cons b bs =>
    rw [hfil] at hv
    simp only [Option.some_inj] at hv
    have hbk : idToSlug b.2 = k := by
      have hb : b ∈ items.filter (fun q => idToSlug q.2 == k) := by
        rw [hfil]; exact List.mem_cons_self b bs
      simpa using (List.mem_filter.mp hb).2
    rw [foldl_push_tag (fun q : Entry × String => mkNote idToSlug q.1) (b :: bs)] at hv
    rw [← hv]
    refine ⟨hbk.symm, ?_, rfl, by simp⟩
    simp [hbk]

/-- The record stored by `GetCategories` at a key that is hit. -/
lemma cat_record_shape (idToSlug : String → String)
    (items : List (Entry × String)) (k : String) (t : Category)
    (hv : keyVal (fun q : Entry × String => idToSlug q.2)
        (fun q => ({ name := q.2, slug := "/categories/" ++ idToSlug q.2, notes := [] } : Category))
        (fun q t => { t with notes := t.notes ++ [mkNote idToSlug q.1] }) items k
      = some t) :
    k = idToSlug t.name ∧
    t.slug = "/categories/" ++ k ∧
    (items.filter fun q => idToSlug q.2 == k).head?.map (fun q => q.2) = some t.name ∧
    t.notes = (items.filter fun q => idToSlug q.2 == k).map fun q => mkNote idToSlug q.1 := by
  unfold keyVal at hv
  cases hfil : items.filter (fun q => idToSlug q.2 == k) with
  | nil => rw [hfil] at hv; cases hv
  | cons b bs =>
    rw [hfil] at hv
    simp only [Option.some_inj] at hv
    have hbk : idToSlug b.2 = k := by
      have hb : b ∈ items.filter (fun q => idToSlug q.2 == k) := by
        rw [hfil]; exact List.mem_cons_self b bs
      simpa using (List.mem_filter.mp hb).2
    rw [foldl_push_cat (fun q : Entry × String => mkNote idToSlug q.1) (b :: bs)] at hv
    rw [← hv]
    refine ⟨hbk.symm, ?_, rfl, by simp⟩
    simp [hbk]

/-! ## C8: maps keyed by slug, first-write-wins on collision -/

/-- C8: `GetTags` and `GetCategories` key their maps by `IdToSlug` of the
name; keys are unique (colliding names merge into the single record created
at the first encounter), the record keeps the first-encountered spelling as
its `name`, and its notes are all entries whose name slugs to the key, in
traversal order. -/
theorem maps_keyed_by_slug (idToSlug : String → String) (isProd : Bool)
    (coll : List Entry) :
    (((GetTags idToSlug isProd coll).map Prod.fst).Nodup ∧
      ∀ pr ∈ GetTags idToSlug isProd coll,
        pr.1 = idToSlug pr.2.name ∧
        pr.2.slug = "/tags/" ++ pr.1 ∧
        ((tagItems isProd coll).filter fun q => idToSlug q.2 == pr.1).head?.map
            (fun q => q.2) = some pr.2.name ∧
        pr.2.notes = ((tagItems isProd coll).filter fun q => idToSlug q.2 == pr.1).map
          fun q => mkNote idToSlug q.1) ∧
    (((GetCategories idToSlug isProd coll).map Prod.fst).Nodup ∧
      ∀ pr ∈ GetCategories idToSlug isProd coll,
        pr.1 = idToSlug pr.2.name ∧
        pr.2.slug = "/categories/" ++ pr.1 ∧
        ((catItems isProd coll).filter fun q => idToSlug q.2 == pr.1).head?.map
            (fun q => q.2) = some pr.2.name ∧
        pr.2.notes = ((catItems isProd coll).filter fun q => idToSlug q.2 == pr.1).map
          fun q => mkNote idToSlug q.1) := by
  constructor
  · constructor
    · rw [GetTags_eq_foldInsert]
      exact foldInsert_keys_nodup _ [] (by simp)
    · intro pr hpr
      rw [GetTags_eq_foldInsert] at hpr
      have hval := foldInsert_mem _ pr hpr
      have h := tag_record_shape idToSlug (tagItems isProd coll) pr.1 pr.2 hval
      exact ⟨h.1, h.2.1, h.2.2.1, h.2.2.2⟩
  · constructor
    · rw [GetCategories_eq_foldInsert]
      exact foldInsert_keys_nodup _ [] (by simp)
    · intro pr hpr
      rw [GetCategories_eq_foldInsert] at hpr
      have hval := foldInsert_mem _ pr hpr
      have h := cat_record_shape idToSlug (catItems isProd coll) pr.1 pr.2 hval
      exact ⟨h.1, h.2.1, h.2.2.1, h.2.2.2⟩

/-! ## C9: category contribution counts -/

lemma catItems_length (isProd : Bool) (coll : List Entry) :
    (catItems isProd coll).length =
      ((filterNotes isProd coll).filter fun e => e.category.getD "" != "").length := by
  unfold catItems
  generalize filterNotes isProd coll = l
  induction l with
  | nil => rfl
  | cons e l ih =>
    rw [List.flatMap_cons, List.length_append, ih]
    cases hc : e.category with
    | none => simp [List.filter_cons, hc]
    | some c =>
      by_cases hce : c = ""
      · simp [List.filter_cons, hc, hce]
      · simp [List.filter_cons, hc, hce]
        omega

/-- C9: a document with an absent or empty category contributes zero entries
to the category index (the total entry count equals the number of documents
with a nonempty category), and a document with nonempty category `c`
contributes an entry to the record keyed `IdToSlug c`. -/
theorem GetCategories_contribution (idToSlug : String → String) (isProd : Bool)
    (coll : List Entry) :
    ((GetCategories idToSlug isProd coll).map fun p => p.2.notes.length).sum =
      ((filterNotes isProd coll).filter fun e => e.category.getD "" != "").length ∧
    ∀ e ∈ filterNotes isProd coll, ∀ c, e.category = some c → c ≠ "" →
      ∃ t : Category, (idToSlug c, t) ∈ GetCategories idToSlug isProd coll ∧
        mkNote idToSlug e ∈ t.notes := by
  constructor
  · rw [GetCategories_eq_foldInsert]
    have hsum := foldInsert_sum (fun q : Entry × String => idToSlug q.2)
      (fun q => ({ name := q.2, slug := "/categories/" ++ idToSlug q.2, notes := [] } : Category))
      (fun q t => { t with notes := t.notes ++ [mkNote idToSlug q.1] })
      (fun t : Category => t.notes.length)
      (fun i s => by simp) (fun i => rfl) (catItems isProd coll) [] (by simp)
    rw [hsum, catItems_length]
    simp
  · intro e he c hc hce
    have hitem : (e, c) ∈ catItems isProd coll := by
      unfold catItems
      refine List.mem_flatMap.mpr ⟨e, he, ?_⟩
      rw [hc]
      simp [hce]
    have hkey : idToSlug c ∈ (GetCategories idToSlug isProd coll).map Prod.fst := by
      rw [GetCategories_eq_foldInsert]
      exact (foldInsert_keys_mem _ _).mpr ⟨(e, c), hitem, rfl⟩
    rcases List.mem_map.mp hkey with ⟨p, hp, hfst⟩
    refine ⟨p.2, ?_, ?_⟩
    · have : p = (idToSlug c, p.2) := by
        rw [← hfst]
      rw [← this]
      exact hp
    · rw [GetCategories_eq_foldInsert] at hp
      have hval := foldInsert_mem _ p hp
      have h := cat_record_shape idToSlug (catItems isProd coll) p.1 p.2 hval
      rw [h.2.2.2]
      refine List.mem_map.mpr ⟨(e, c), ?_, rfl⟩
      refine List.mem_filter.mpr ⟨hitem, ?_⟩
      simp [hfst]

/-! ## C10: the category path prefix -/

lemma cat_path_ne_tag_path (a b : String) : "/categories/" ++ a ≠ "/tags/" ++ b := by
  intro h
  have h2 := congrArg String.data h
  rw [String.data_append, String.data_append] at h2
  have hc : "/categories/".data =
      ['/', 'c', 'a', 't', 'e', 'g', 'o', 'r', 'i', 'e', 's', '/'] := rfl
  have ht : "/tags/".data = ['/', 't', 'a', 'g', 's', '/'] := rfl
  rw [hc, ht] at h2
  simp at h2

/-- C10: every `GetCategories` record has
`slug = "/categories/" ++ IdToSlug name`, a path distinct from every
`GetTags` record's `/tags/…` slug. -/
theorem category_slug_paths (idToSlug : String → String) (isProd : Bool)
    (coll : List Entry) :
    (∀ pr ∈ GetCategories idToSlug isProd coll,
        pr.2.slug = "/categories/" ++ idToSlug pr.2.name) ∧
    (∀ pr ∈ GetCategories idToSlug isProd coll,
      ∀ q ∈ GetTags idToSlug isProd coll, pr.2.slug ≠ q.2.slug) := by
  have hcat : ∀ pr ∈ GetCategories idToSlug isProd coll,
      pr.1 = idToSlug pr.2.name ∧ pr.2.slug = "/categories/" ++ pr.1 := by
    intro pr hpr
    rw [GetCategories_eq_foldInsert] at hpr
    have hval := foldInsert_mem _ pr hpr
    have h := cat_record_shape idToSlug (catItems isProd coll) pr.1 pr.2 hval
    exact ⟨h.1, h.2.1⟩
  have htag : ∀ q ∈ GetTags idToSlug isProd coll,
      q.2.slug = "/tags/" ++ q.1 := by
    intro q hq
    rw [GetTags_eq_foldInsert] at hq
    have hval := foldInsert_mem _ q hq
    exact (tag_record_shape idToSlug (tagItems isProd coll) q.1 q.2 hval).2.1
  constructor
  · intro pr hpr
    rw [(hcat pr hpr).2, (hcat pr hpr).1]
  · intro pr hpr q hq
    rw [(hcat pr hpr).2, htag q hq]
    exact cat_path_ne_tag_path pr.1 q.1

/-! ## Witness evaluations -/

lemma arraySort_singleton {α : Type _} (cmp : α → α → Int) (x : α) :
    arraySort cmp [x] = [x] :=
  List.mergeSort_singleton x

/-- Demo entry "c": tied in date with "d". -/
def dC : Entry :=
  { id := "c", slug := "c", title := "C", published := ⟨2023, 5⟩, draft := none,
    tags := none, category := none }

/-- Demo entry "d": tied in date with "c". -/
def dD : Entry :=
  { id := "d", slug := "d", title := "D", published := ⟨2023, 5⟩, draft := none,
    tags := none, category := none }

lemma GetNotes_demo :
    GetNotes (fun s => s) true [dB, dA] =
      [(2024, [mkNote (fun s => s) dB, mkNote (fun s => s) dA])] := by
  have hg : foldInsert (fun e : Entry => e.published.year) (fun _ => ([] : List Notes))
      (fun e s => s ++ [mkNote (fun s : String => s) e]) [] (filterNotes true [dB, dA]) =
      [(2024, [mkNote (fun s => s) dB, mkNote (fun s => s) dA])] := by decide
  have hb : arraySort noteDateCompare [mkNote (fun s => s) dB, mkNote (fun s => s) dA] =
      [mkNote (fun s => s) dB, mkNote (fun s => s) dA] :=
    List.mergeSort_of_sorted (by decide)
  rw [GetNotes_eq, hg, arraySort_singleton, List.map_singleton, hb]

lemma GetNotes_demoTie :
    GetNotes (fun s => s) true [dC, dD] =
      [(2023, [mkNote (fun s => s) dC, mkNote (fun s => s) dD])] := by
  have hg : foldInsert (fun e : Entry => e.published.year) (fun _ => ([] : List Notes))
      (fun e s => s ++ [mkNote (fun s : String => s) e]) [] (filterNotes true [dC, dD]) =
      [(2023, [mkNote (fun s => s) dC, mkNote (fun s => s) dD])] := by decide
  have hb : arraySort noteDateCompare [mkNote (fun s => s) dC, mkNote (fun s => s) dD] =
      [mkNote (fun s => s) dC, mkNote (fun s => s) dD] :=
    List.mergeSort_of_sorted (by decide)
  rw [GetNotes_eq, hg, arraySort_singleton, List.map_singleton, hb]

/-- Witness for C5 at a concrete tied input: the 2023 bucket keeps the two
equal-dated notes in source order. -/
theorem sort_stable_ties_witness :
    [mkNote (fun s => s) dC, mkNote (fun s => s) dD].filter
        (fun n => n.date.time == 5) =
      (((filterNotes true [dC, dD]).filter fun e => e.published.year == 2023).map
        (mkNote (fun s => s))).filter (fun n => n.date.time == 5) :=
  (sort_stable_ties (fun s => s) true [dC, dD]).2.2 2023
    [mkNote (fun s => s) dC, mkNote (fun s => s) dD]
    (by rw [GetNotes_demoTie]; exact List.mem_singleton.mpr rfl) 5

/-- Witness for C6 at the demo input: the 2024 bucket is non-increasing. -/
theorem GetNotes_spec_witness :
    List.Pairwise (fun a b => b.date.time ≤ a.date.time)
      [mkNote (fun s => s) dB, mkNote (fun s => s) dA] :=
  (GetNotes_spec (fun s => s) true [dB, dA]).2.2 2024
    [mkNote (fun s => s) dB, mkNote (fun s => s) dA]
    (by rw [GetNotes_demo]; exact List.mem_singleton.mpr rfl)

/-- The single record produced when every tag collides to slug "x". -/
def collidedTag : String × Tag :=
  ("x", { name := "t1", slug := "/tags/x",
          notes := [mkNote (fun _ => "x") dA, mkNote (fun _ => "x") dA,
                    mkNote (fun _ => "x") dB] })

/-- Witness for C8 with a colliding slug function: tags "t1" and "t2" merge
into one record named after the first-encountered tag. -/
theorem maps_keyed_by_slug_witness :
    collidedTag.1 = (fun _ : String => "x") collidedTag.2.name ∧
    collidedTag.2.slug = "/tags/" ++ collidedTag.1 ∧
    ((tagItems true [dA, dB]).filter fun q =>
        (fun _ : String => "x") q.2 == collidedTag.1).head?.map (fun q => q.2) =
      some collidedTag.2.name ∧
    collidedTag.2.notes = ((tagItems true [dA, dB]).filter fun q =>
        (fun _ : String => "x") q.2 == collidedTag.1).map
      fun q => mkNote (fun _ => "x") q.1 :=
  (maps_keyed_by_slug (fun _ => "x") true [dA, dB]).1.2 collidedTag (by decide)

/-- Witness for C9: the document with category "CatX" lands in the record
keyed by the slug of "CatX". -/
theorem GetCategories_contribution_witness :
    ∃ t : Category,
      ((fun s : String => s) "CatX", t) ∈ GetCategories (fun s => s) true [dA, dB] ∧
      mkNote (fun s => s) dA ∈ t.notes :=
  (GetCategories_contribution (fun s => s) true [dA, dB]).2 dA (by decide)
    "CatX" (by decide) (by decide)

/-- A concrete `GetCategories` record of the demo input. -/
def demoCatPr : String × Category :=
  ("CatX", { name := "CatX", slug := "/categories/CatX",
             notes := [mkNote (fun s => s) dA] })

/-- A concrete `GetTags` record of the demo input. -/
def demoTagPr : String × Tag :=
  ("t1", { name := "t1", slug := "/tags/t1",
           notes := [mkNote (fun s => s) dA, mkNote (fun s => s) dB] })

/-- Witness for C10 at the demo input. -/
theorem category_slug_paths_witness :
    demoCatPr.2.slug = "/categories/" ++ (fun s : String => s) demoCatPr.2.name ∧
    demoCatPr.2.slug ≠ demoTagPr.2.slug :=
  ⟨(category_slug_paths (fun s => s) true [dA, dB]).1 demoCatPr (by decide),
   (category_slug_paths (fun s => s) true [dA, dB]).2 demoCatPr (by decide)
     demoTagPr (by decide)⟩

end Yukina
